import Mathlib

/-!
Verification of the Milcodec covert-channel audio codec
(src/Milcodec/milcodec_studio.py and src/Milcodec/milcodec_masker.py)
against its natural-language specification.

Shallow embedding conventions:
* Python byte strings are modelled as `List ℕ` with entries below 256.
* NumPy 1-D float arrays are modelled by the structure `Arr` (a length and
  an indexing function into ℝ); float arithmetic is idealised as real
  arithmetic.
* The external `cryptography` library primitives (PBKDF2 key derivation and
  the ChaCha20 stream cipher) are modelled by explicit function parameters
  `kdf` (password and salt to key) and `ks` (key and nonce to keystream):
  a ChaCha20 encryptor and decryptor both XOR the plaintext with the
  keystream determined by key and nonce.  The library's nonce validation
  (`algorithms.ChaCha20` requires a 128-bit nonce and raises `ValueError`
  otherwise) is modelled explicitly, as is the module's CRYPTO_AVAILABLE
  branch (a `Bool` parameter), the fallback key `(password * 32)[:32]`
  with its `ZeroDivisionError` on an empty key, and the final
  `bytes.decode('utf-8')` with its `UnicodeDecodeError` on invalid UTF-8.
  Plaintexts and decode results are the UTF-8 byte encodings of the
  Python strings.
* A raised Python exception is modelled by an `Option` result being `none`.
-/

namespace Milcodec

/-! ## Bytes and bits (milcodec_studio.py lines 174-181, milcodec_masker.py lines 179-185) -/

/-- The eight bits of a byte, most significant first:
mirrors the loop `bits.append((byte >> (7 - i)) & 1)` for `i in range(8)`. -/
def byteBits (b : ℕ) : List ℕ :=
  (List.range 8).map (fun i => (b >>> (7 - i)) &&& 1)

/-- Convert a byte sequence to its bit sequence, MSB first
(the studio loop at lines 178-181 and DSSSMasker._bytes_to_bits). -/
def bytesToBits (data : List ℕ) : List ℕ :=
  data.flatMap byteBits

/-- The 4-byte big-endian encoding of a length, as produced by
the Python expression len(message_bytes).to_bytes(4, 'big')
(milcodec_studio.py line 174), for values below 2^32. -/
def lengthBytes (n : ℕ) : List ℕ :=
  [n / 2 ^ 24 % 256, n / 2 ^ 16 % 256, n / 2 ^ 8 % 256, n % 256]

/-- Reassemble a list of bits into bytes, MSB first, dropping a trailing
incomplete byte: DSSSMasker._bits_to_bytes, and the identical inline loop
at milcodec_studio.py lines 275-281. -/
def bitsToBytes (bits : List ℕ) : List ℕ :=
  (List.range (bits.length / 8)).map
    (fun j => ∑ u in Finset.range 8, (bits.getD (8 * j + u) 0) <<< (7 - u))

/-! ## NumPy arrays and the DSSS signal chain -/

/-- A 1-D NumPy float array: a length together with an indexing function.
Values at indices at or beyond the length are irrelevant. -/
structure Arr where
  len : ℕ
  val : ℕ → ℝ

/-- Element i of np.linspace(0, stop, n): numpy includes the endpoint, so
for n at least 2 the step is stop/(n-1); a single point is 0. -/
noncomputable def linspace (stop : ℝ) (n i : ℕ) : ℝ :=
  if n ≤ 1 then 0 else stop * i / ((n - 1 : ℕ) : ℝ)

/-- Sample i of the sinusoidal carrier np.sin(2*pi*freq*t) where
t = np.linspace(0, n/sample_rate, n), as generated at
milcodec_studio.py lines 197-198 and 239-240 and
milcodec_masker.py lines 145-146 and 212-213. -/
noncomputable def carrierWave (freq : ℝ) (sr n i : ℕ) : ℝ :=
  Real.sin (2 * Real.pi * freq * linspace ((n : ℝ) / (sr : ℝ)) n i)

/-- samples_per_chip = int(sample_rate * 0.001) (chip_duration 1 ms);
int() truncates, so this is floor division by 1000. -/
def samplesPerChip (sr : ℕ) : ℕ := sr / 1000

/-- The 31 raw 0/1 values of the PN code array (milcodec_masker.py
lines 23-26, duplicated at milcodec_studio.py lines 64-67). -/
def PNC_BITS : List ℝ :=
  [1, 1, 1, 1, 1, 0, 0, 0, 1, 1, 0, 1, 1, 1, 0, 1,
   0, 1, 0, 0, 0, 0, 1, 0, 0, 1, 0, 1, 1, 0, 0]

/-- PNC_KEY: the PN code mapped into chips in {-1, +1} by x*2 - 1. -/
def PNC_KEY : List ℝ := PNC_BITS.map (fun x => x * 2 - 1)

/-- Spread bits with the PN code: each bit contributes PNC_KEY * scalar
where scalar is +1 for bit 1 and -1 for bit 0 (milcodec_studio.py
lines 184-187, DSSSMasker._spread_bits). -/
def spreadBits (bits : List ℕ) : List ℝ :=
  bits.flatMap (fun bit => PNC_KEY.map (fun c => c * (if bit = 1 then 1 else -1)))

/-- np.repeat(spread_signal, samples_per_chip): the piecewise-constant
baseband at audio rate. -/
def basebandList (bits : List ℕ) (spc : ℕ) : List ℝ :=
  (spreadBits bits).flatMap (fun x => List.replicate spc x)

/-- The framed message of SteganographyEngine.embed_in_audio lines
174-175: 4-byte big-endian length header followed by the message. -/
def studioFrame (msg : List ℕ) : List ℕ := lengthBytes msg.length ++ msg

/-- The modulated signal built inside SteganographyEngine.embed_in_audio
(lines 174-199): frame, bits, PN spreading, upsampling by
samples_per_chip, and multiplication by the 12 kHz carrier. -/
noncomputable def studioModulated (sr : ℕ) (msg : List ℕ) : Arr :=
  let bl := basebandList (bytesToBits (studioFrame msg)) (samplesPerChip sr)
  ⟨bl.length, fun i => bl.getD i 0 * carrierWave 12000 sr bl.length i⟩

/-- signal_amplitude = np.sqrt(10 ** (snr_db / 10)) * 0.5
(milcodec_studio.py lines 204-205): the studio mixing scalar depends only
on the SNR, not on the carrier audio. -/
noncomputable def studioSignalAmplitude (snr : ℝ) : ℝ :=
  Real.sqrt ((10 : ℝ) ^ (snr / 10)) * 0.5

/-- np.max(np.abs(a)) for a nonempty array; all mapped values are
nonnegative, so folding max from 0 returns the true maximum. -/
noncomputable def maxAbsVal (a : Arr) : ℝ :=
  ((List.range a.len).map (fun i => |a.val i|)).foldr max 0

/-- The output of embed_in_audio before clip normalization (lines
207-214): the carrier with modulated * signal_amplitude added into its
leading samples, the modulated signal truncated to the carrier length. -/
noncomputable def studioMixed (sr : ℕ) (carrier : Arr) (msg : List ℕ) (snr : ℝ) : Arr :=
  let m := studioModulated sr msg
  ⟨carrier.len, fun i =>
    if i < min m.len carrier.len
    then carrier.val i + m.val i * studioSignalAmplitude snr
    else carrier.val i⟩

/-- SteganographyEngine.embed_in_audio (lines 160-221): mix, then rescale
the whole output by 0.99/max when the peak magnitude exceeds 1.0.
(np.max would raise on an empty carrier; no claim touches that case.) -/
noncomputable def studioEmbed (sr : ℕ) (carrier : Arr) (msg : List ℕ) (snr : ℝ) : Arr :=
  let mixed := studioMixed sr carrier msg snr
  let mv := maxAbsVal mixed
  if 1 < mv then ⟨mixed.len, fun i => mixed.val i / mv * 0.99⟩ else mixed

/-- Demodulation: multiply the received audio by the locally generated
carrier replica of the same length (milcodec_studio.py lines 239-241,
milcodec_masker.py lines 145-147). -/
noncomputable def demodArr (freq : ℝ) (sr : ℕ) (audio : Arr) : Arr :=
  ⟨audio.len, fun i => audio.val i * carrierWave freq sr audio.len i⟩

/-- np.mean of the i-th chip-sized sub-block of the window starting at
pos: chips.append(np.mean(chunk[i*spc : (i+1)*spc])). -/
noncomputable def chipMean (d : Arr) (spc pos i : ℕ) : ℝ :=
  (∑ u in Finset.range spc, d.val (pos + i * spc + u)) / (spc : ℝ)

/-- correlation = np.sum(chips * PNC_KEY). -/
noncomputable def corrAt (d : Arr) (spc pos : ℕ) : ℝ :=
  ∑ i in Finset.range PNC_KEY.length, chipMean d spc pos i * PNC_KEY.getD i 0

/-- bit = 1 if correlation > 0 else 0. -/
noncomputable def bitAt (d : Arr) (spc pos : ℕ) : ℕ :=
  if 0 < corrAt d spc pos then 1 else 0

/-- The bit-extraction loop of SteganographyEngine.extract_from_audio
(lines 248-272): at most 32 + 8*256 windows of pn_len*spc samples, one
bit per complete window.  (Faithful for spc > 0; every claim uses the
44100 Hz rate, where spc = 44.) -/
noncomputable def studioBits (audio : Arr) (sr : ℕ) : List ℕ :=
  let spc := samplesPerChip sr
  let pn := PNC_KEY.length * spc
  let d := demodArr 12000 sr audio
  (List.range (min (audio.len / pn) (32 + 8 * 256))).map (fun k => bitAt d spc (k * pn))

/-- The byte-assembly tail of SteganographyEngine.extract_from_audio
(lines 274-290): group bits into bytes, read the first four bytes as a
big-endian length, and return extracted_bytes[4 : 4 + message_length]
(Python slicing clamps, so a short tail yields a partial payload). -/
def studioAssemble (bits : List ℕ) : List ℕ :=
  let bytes := bitsToBytes bits
  if bytes.length < 4 then []
  else (bytes.drop 4).take
    (bytes.getD 0 0 * 2 ^ 24 + bytes.getD 1 0 * 2 ^ 16 +
      bytes.getD 2 0 * 2 ^ 8 + bytes.getD 3 0)

/-- SteganographyEngine.extract_from_audio (lines 223-290). -/
noncomputable def studioExtract (audio : Arr) (sr : ℕ) : List ℕ :=
  studioAssemble (studioBits audio sr)

/-- The modulated signal of the DSSS masker (bits, spreading, upsampling,
carrier multiplication at the masker's configurable frequency and fixed
44100 Hz rate): DSSSMasker._modulate_signal applied to the spread bits. -/
noncomputable def maskerModulated (freq : ℝ) (payload : List ℕ) : Arr :=
  let bl := basebandList (bytesToBits payload) (samplesPerChip 44100)
  ⟨bl.length, fun i => bl.getD i 0 * carrierWave freq 44100 bl.length i⟩

/-- carrier_power = np.mean(carrier_audio ** 2)
(milcodec_masker.py line 113). -/
noncomputable def carrierPower (c : Arr) : ℝ :=
  (∑ i in Finset.range c.len, (c.val i) ^ 2) / (c.len : ℝ)

/-- signal_amplitude = np.sqrt(carrier_power * 10 ** (snr_db / 10))
(milcodec_masker.py lines 113-115). -/
noncomputable def maskerSignalAmplitude (snr : ℝ) (c : Arr) : ℝ :=
  Real.sqrt (carrierPower c * (10 : ℝ) ^ (snr / 10))

/-- DSSSMasker.generate_with_carrier before clip normalization (lines
107-123): carrier plus modulated * signal_amplitude over the embedded
region, the modulated signal truncated to the carrier length. -/
noncomputable def maskerMixed (freq snr : ℝ) (p : List ℕ) (c : Arr) : Arr :=
  let m := maskerModulated freq p
  ⟨c.len, fun i =>
    if i < min m.len c.len
    then c.val i + m.val i * maskerSignalAmplitude snr c
    else c.val i⟩

/-- DSSSMasker.generate_with_carrier (lines 95-130): mix, then rescale by
0.99/max when the peak magnitude exceeds 1.0. -/
noncomputable def maskerGenerateWithCarrier (freq snr : ℝ) (p : List ℕ) (c : Arr) : Arr :=
  let mixed := maskerMixed freq snr p c
  let mv := maxAbsVal mixed
  if 1 < mv then ⟨mixed.len, fun i => mixed.val i / mv * 0.99⟩ else mixed

/-- DSSSMasker._apply_noise_masking (lines 218-243): add Gaussian noise
of power sig_power / 10^(snr/10) (the standard-normal draw is the
explicit parameter noise), then rescale to peak 0.95.  The reduction
np.max(np.abs(masked)) raises on an empty array, modelled as none; on the
empty input np.mean also yields nan, but the run still dies at the max
reduction, so the nan value never reaches a returned array. -/
noncomputable def applyNoiseMasking (snr : ℝ) (noise : ℕ → ℝ) (modulated : Arr) : Option Arr :=
  let sigPower0 := (∑ i in Finset.range modulated.len, (modulated.val i) ^ 2) / (modulated.len : ℝ)
  let sigPower := if sigPower0 = 0 then 1e-9 else sigPower0
  let noiseStd := Real.sqrt (sigPower / (10 : ℝ) ^ (snr / 10))
  let masked : Arr := ⟨modulated.len, fun i => modulated.val i + noiseStd * noise i⟩
  if masked.len = 0 then none
  else
    let mv := maxAbsVal masked
    some (if 0 < mv then ⟨masked.len, fun i => masked.val i / mv * 0.95⟩ else masked)

/-- DSSSMasker.generate_masked_audio (lines 62-93): bits, spreading,
modulation at the masker's carrier frequency, then noise masking. -/
noncomputable def generateMaskedAudio (freq snr : ℝ) (noise : ℕ → ℝ) (p : List ℕ) : Option Arr :=
  applyNoiseMasking snr noise (maskerModulated freq p)

/-- The bit-extraction loop of DSSSMasker.extract_from_audio (lines
132-175): same correlation decision as the studio, but capped at 4096
bits and using the masker's carrier frequency. -/
noncomputable def maskerBits (freq : ℝ) (audio : Arr) : List ℕ :=
  let spc := samplesPerChip 44100
  let pn := PNC_KEY.length * spc
  let d := demodArr freq 44100 audio
  (List.range (min (audio.len / pn) 4096)).map (fun k => bitAt d spc (k * pn))

/-- DSSSMasker.extract_from_audio (lines 132-177): extracted bits packed
into bytes with no length header. -/
noncomputable def maskerExtract (freq : ℝ) (audio : Arr) : List ℕ :=
  bitsToBytes (maskerBits freq audio)

/-! ## CryptoHelper (milcodec_studio.py lines 79-144) -/

/-- MAGIC_HEADER = b"MILCODEC_V2" (milcodec_studio.py line 73), as its
11 ASCII byte values. -/
def MAGIC_BYTES : List ℕ :=
  [77, 73, 76, 67, 79, 68, 69, 67, 95, 86, 50]

/-- XOR a byte list against a keystream starting at stream index i:
the action of a ChaCha20 encryptor or decryptor update on a buffer. -/
def xorStream (f : ℕ → ℕ) : ℕ → List ℕ → List ℕ
  | _, [] => []
  | i, b :: rest => (b ^^^ f i) :: xorStream f (i + 1) rest

/-- A UTF-8 continuation byte: 0x80 to 0xBF. -/
def contByte (c : ℕ) : Bool := 128 ≤ c && c ≤ 191

/-- Python's strict UTF-8 validity test, as applied by the final
bytes.decode('utf-8') of CryptoHelper.decrypt (milcodec_studio.py lines
138 and 144); decode raises UnicodeDecodeError exactly when this is
false.  Per RFC 3629 (CPython's strict decoder): ASCII bytes stand
alone; leads 0xC2-0xDF take one continuation byte; 3-byte leads take
two, with 0xE0 restricting its first continuation to 0xA0-0xBF (no
overlong forms) and 0xED to 0x80-0x9F (no surrogates); 4-byte leads take
three, with 0xF0 restricting to 0x90-0xBF and 0xF4 to 0x80-0x8F (at most
U+10FFFF); 0xC0, 0xC1 and 0xF5 and above never start a character. -/
def validUtf8 : List ℕ → Bool
  | [] => true
  | b :: rest =>
    if b ≤ 127 then validUtf8 rest
    else if 194 ≤ b ∧ b ≤ 223 then
      match rest with
      | [] => false
      | c1 :: r => contByte c1 && validUtf8 r
    else if 224 ≤ b ∧ b ≤ 239 then
      match rest with
      | c1 :: c2 :: r =>
        (if b = 224 then decide (160 ≤ c1 ∧ c1 ≤ 191)
          else if b = 237 then decide (128 ≤ c1 ∧ c1 ≤ 159)
          else contByte c1) && contByte c2 && validUtf8 r
      | _ => false
    else if 240 ≤ b ∧ b ≤ 244 then
      match rest with
      | c1 :: c2 :: c3 :: r =>
        (if b = 240 then decide (144 ≤ c1 ∧ c1 ≤ 191)
          else if b = 244 then decide (128 ≤ c1 ∧ c1 ≤ 143)
          else contByte c1) && contByte c2 && contByte c3 && validUtf8 r
      | _ => false
    else false

/-- The fallback XOR key (password * 32)[:32].encode('utf-8') of
CryptoHelper.derive_key (milcodec_studio.py line 90), for the password
given as its byte sequence: exact for one-byte characters, and in every
case the key is empty exactly when the password is empty. -/
def fallbackKey (pw : List ℕ) : List ℕ := (List.replicate 32 pw).flatten.take 32

/-- bytes([b ^ key[i % len(key)] for i, b in enumerate(data)]) for a
nonempty key (milcodec_studio.py lines 112 and 137); the empty-key case
raises ZeroDivisionError at i % 0 and is handled by the callers. -/
def fallbackXor (key data : List ℕ) : List ℕ :=
  xorStream (fun i => key.getD (i % key.length) 0) 0 data

/-- CryptoHelper.encrypt (milcodec_studio.py lines 103-120), with the
module's CRYPTO_AVAILABLE branch made explicit.  The 16-byte salt and
12-byte nonce, drawn by os.urandom in the source, are passed explicitly;
kdf models PBKDF2HMAC key derivation, ks the ChaCha20 keystream of a key
and nonce, and the plaintext is the UTF-8 byte encoding of the input
string; none models a raised exception.
In the CRYPTO branch, algorithms.ChaCha20(key, nonce) validates a
128-bit (16-byte) nonce, so the 12-byte nonce the code draws at line 107
makes every call raise ValueError.  (The library also validates the
256-bit key, which the PBKDF2 derivation always satisfies.)  In the
fallback branch, key[i % len(key)] raises ZeroDivisionError when the key
is empty (empty password) and the plaintext is nonempty. -/
def encrypt (available : Bool) (kdf : List ℕ → List ℕ → List ℕ)
    (ks : List ℕ → List ℕ → ℕ → ℕ) (plaintext pw salt nonce : List ℕ) :
    Option (List ℕ) :=
  if available then
    if nonce.length = 16 then
      some (MAGIC_BYTES ++ salt ++ nonce ++ xorStream (ks (kdf pw salt) nonce) 0 plaintext)
    else none
  else
    if plaintext ≠ [] ∧ fallbackKey pw = [] then none
    else some (MAGIC_BYTES ++ salt ++ nonce ++ fallbackXor (fallbackKey pw) plaintext)

/-- CryptoHelper.decrypt (milcodec_studio.py lines 122-144): raise when
the blob does not start with MAGIC_HEADER; otherwise slice
salt = data[:16], nonce = data[16:28], ciphertext = data[28:] (Python
slicing clamps on short blobs, and so do take and drop), re-derive the
key, decrypt, and decode the result as UTF-8 — raising
UnicodeDecodeError when the bytes are not valid UTF-8.  The result is
the UTF-8 byte encoding of the returned string; none models any raised
exception.  In the CRYPTO branch the parsed nonce slice has at most 12
bytes and fails ChaCha20's 16-byte nonce validation, so every
magic-prefixed blob raises; in the fallback branch an empty key (empty
password) raises on a nonempty ciphertext. -/
def decrypt (available : Bool) (kdf : List ℕ → List ℕ → List ℕ)
    (ks : List ℕ → List ℕ → ℕ → ℕ) (blob pw : List ℕ) : Option (List ℕ) :=
  if blob.take 11 = MAGIC_BYTES then
    let data := blob.drop 11
    let salt := data.take 16
    let nonce := (data.drop 16).take 12
    let ciphertext := data.drop 28
    if available then
      if nonce.length = 16 then
        let pt := xorStream (ks (kdf pw salt) nonce) 0 ciphertext
        if validUtf8 pt then some pt else none
      else none
    else
      if ciphertext ≠ [] ∧ fallbackKey pw = [] then none
      else
        let pt := fallbackXor (fallbackKey pw) ciphertext
        if validUtf8 pt then some pt else none
  else none

/-! ## Basic lemmas about the byte layer -/

theorem xorStream_length (f : ℕ → ℕ) : ∀ (i : ℕ) (l : List ℕ),
    (xorStream f i l).length = l.length := by
  intro i l
  induction l generalizing i with
  | nil => rfl
  | cons b rest ih => simp [xorStream, ih]

theorem xorStream_getD (f : ℕ → ℕ) : ∀ (i : ℕ) (l : List ℕ) (j : ℕ), j < l.length →
    (xorStream f i l).getD j 0 = l.getD j 0 ^^^ f (i + j) := by
  intro i l
  induction l generalizing i with
  | nil => intro j hj; simp at hj
  | cons b rest ih =>
    intro j hj
    cases j with
    | zero => simp [xorStream]
    | succ j =>
      simp only [xorStream, List.getD_cons_succ]
      rw [ih (i + 1) j (by simpa using hj)]
      ring_nf

theorem xorStream_involution (f : ℕ → ℕ) : ∀ (i : ℕ) (l : List ℕ),
    xorStream f i (xorStream f i l) = l := by
  intro i l
  induction l generalizing i with
  | nil => rfl
  | cons b rest ih => simp [xorStream, ih, Nat.xor_assoc]

theorem fallbackXor_length (key data : List ℕ) :
    (fallbackXor key data).length = data.length := xorStream_length _ _ _

theorem fallbackXor_getD (key data : List ℕ) (j : ℕ) (hj : j < data.length) :
    (fallbackXor key data).getD j 0 = data.getD j 0 ^^^ key.getD (j % key.length) 0 := by
  have h := xorStream_getD (fun i => key.getD (i % key.length) 0) 0 data j hj
  show (xorStream (fun i => key.getD (i % key.length) 0) 0 data).getD j 0 = _
  simpa using h

theorem sealed_take11 (salt nonce ct : List ℕ) :
    (MAGIC_BYTES ++ salt ++ nonce ++ ct).take 11 = MAGIC_BYTES := by
  rw [show MAGIC_BYTES ++ salt ++ nonce ++ ct = MAGIC_BYTES ++ (salt ++ (nonce ++ ct)) by simp,
    show (11 : ℕ) = MAGIC_BYTES.length from rfl, List.take_left]

theorem sealed_drop11 (salt nonce ct : List ℕ) :
    (MAGIC_BYTES ++ salt ++ nonce ++ ct).drop 11 = salt ++ (nonce ++ ct) := by
  rw [show MAGIC_BYTES ++ salt ++ nonce ++ ct = MAGIC_BYTES ++ (salt ++ (nonce ++ ct)) by simp,
    show (11 : ℕ) = MAGIC_BYTES.length from rfl, List.drop_left]

theorem sealed_nonce (salt nonce ct : List ℕ) (hs : salt.length = 16)
    (hn : nonce.length = 12) :
    (((MAGIC_BYTES ++ salt ++ nonce ++ ct).drop 11).drop 16).take 12 = nonce := by
  rw [sealed_drop11, show (16 : ℕ) = salt.length from hs.symm, List.drop_left,
    show (12 : ℕ) = nonce.length from hn.symm, List.take_left]

theorem sealed_ct (salt nonce ct : List ℕ) (hs : salt.length = 16)
    (hn : nonce.length = 12) :
    ((MAGIC_BYTES ++ salt ++ nonce ++ ct).drop 11).drop 28 = ct := by
  rw [sealed_drop11, show (28 : ℕ) = 16 + 12 from rfl, ← List.drop_drop,
    show (16 : ℕ) = salt.length from hs.symm, List.drop_left,
    show (12 : ℕ) = nonce.length from hn.symm, List.drop_left]

/-- Opening a well-formed sealed blob in the CRYPTO branch always raises:
the parsed 12-byte nonce slice fails ChaCha20's 16-byte nonce check. -/
theorem decrypt_parts_true (kdf : List ℕ → List ℕ → List ℕ)
    (ks : List ℕ → List ℕ → ℕ → ℕ) (salt nonce ct pw : List ℕ)
    (hs : salt.length = 16) (hn : nonce.length = 12) :
    decrypt true kdf ks (MAGIC_BYTES ++ salt ++ nonce ++ ct) pw = none := by
  have ht := sealed_take11 salt nonce ct
  have hno := sealed_nonce salt nonce ct hs hn
  simp only [decrypt, ht, if_pos rfl, hno]
  simp [hn]

/-- Opening a well-formed sealed blob in the fallback branch parses the
ciphertext back and either raises on the empty key, decodes, or raises
UnicodeDecodeError. -/
theorem decrypt_parts_false (kdf : List ℕ → List ℕ → List ℕ)
    (ks : List ℕ → List ℕ → ℕ → ℕ) (salt nonce ct pw : List ℕ)
    (hs : salt.length = 16) (hn : nonce.length = 12) :
    decrypt false kdf ks (MAGIC_BYTES ++ salt ++ nonce ++ ct) pw =
      if ct ≠ [] ∧ fallbackKey pw = [] then none
      else if validUtf8 (fallbackXor (fallbackKey pw) ct) then
        some (fallbackXor (fallbackKey pw) ct)
      else none := by
  have ht := sealed_take11 salt nonce ct
  have hc := sealed_ct salt nonce ct hs hn
  simp only [decrypt, ht, if_pos rfl, hc]
  simp

/-- C2: the encryption round trip cannot hold for every payload and
password, because CryptoHelper.encrypt itself raises.  With the
cryptography library available, the 12-byte nonce drawn at line 107 is
rejected by algorithms.ChaCha20, which requires a 128-bit nonce, so
every call raises ValueError (shown here for every possible 12-byte
nonce); and in the fallback branch an empty password derives an empty
key, so key[i % len(key)] raises ZeroDivisionError on any nonempty
plaintext. -/
theorem C2_round_trip_code_bug (kdf : List ℕ → List ℕ → List ℕ)
    (ks : List ℕ → List ℕ → ℕ → ℕ) (p pw salt rest : List ℕ)
    (b n0 n1 n2 n3 n4 n5 n6 n7 n8 n9 n10 n11 : ℕ) :
    encrypt true kdf ks p pw salt
        [n0, n1, n2, n3, n4, n5, n6, n7, n8, n9, n10, n11] = none ∧
      encrypt false kdf ks (b :: rest) [] salt
        [n0, n1, n2, n3, n4, n5, n6, n7, n8, n9, n10, n11] = none := by
  constructor
  · simp [encrypt]
  · have hk : fallbackKey ([] : List ℕ) = [] := rfl
    simp [encrypt, hk]

/-- C3 counterexample (fallback branch): for the empty payload, opening
the sealed blob with a different password returns the payload itself —
the empty ciphertext decrypts to the empty string under any password —
so the claimed inequality fails.  Shown at an explicit keystream model,
which the computation never consults. -/
theorem C3_wrong_password_counterexample :
    ([97] : List ℕ) ≠ [98] ∧
      encrypt false (fun pw _ => pw) (fun k _ _ => k.headD 0)
          [] [97] (List.replicate 16 0) (List.replicate 12 0) =
        some (MAGIC_BYTES ++ List.replicate 16 0 ++ List.replicate 12 0) ∧
      decrypt false (fun pw _ => pw) (fun k _ _ => k.headD 0)
        (MAGIC_BYTES ++ List.replicate 16 0 ++ List.replicate 12 0) [98] = some [] := by
  refine ⟨by decide, by decide, by decide⟩

/-- C3 amended: with a wrong password, fallback-branch decryption never
returns the original payload when the two passwords' fallback keystreams
differ at some index below the payload length: it either raises
(ZeroDivisionError on an empty key, or UnicodeDecodeError from the final
UTF-8 decode) or returns different bytes.  The original claim fails in
both directions: decryption can fail explicitly — in the CRYPTO branch
it always raises at ChaCha20's nonce check — and for the empty payload
it returns the payload unchanged. -/
theorem C3_wrong_password_amended (kdf : List ℕ → List ℕ → List ℕ)
    (ks : List ℕ → List ℕ → ℕ → ℕ) (p pw1 pw2 salt nonce : List ℕ)
    (hs : salt.length = 16) (hn : nonce.length = 12)
    (hk1 : fallbackKey pw1 ≠ [])
    (hdiff : ∃ j, j < p.length ∧
      (fallbackKey pw1).getD (j % (fallbackKey pw1).length) 0 ≠
        (fallbackKey pw2).getD (j % (fallbackKey pw2).length) 0) :
    encrypt false kdf ks p pw1 salt nonce =
        some (MAGIC_BYTES ++ salt ++ nonce ++ fallbackXor (fallbackKey pw1) p) ∧
      decrypt false kdf ks
          (MAGIC_BYTES ++ salt ++ nonce ++ fallbackXor (fallbackKey pw1) p) pw2 ≠
        some p := by
  obtain ⟨j, hj, hne⟩ := hdiff
  constructor
  · simp [encrypt, hk1]
  · rw [decrypt_parts_false kdf ks salt nonce _ pw2 hs hn]
    by_cases hg : fallbackXor (fallbackKey pw1) p ≠ [] ∧ fallbackKey pw2 = []
    · rw [if_pos hg]
      simp
    · rw [if_neg hg]
      by_cases hv : validUtf8 (fallbackXor (fallbackKey pw2)
          (fallbackXor (fallbackKey pw1) p)) = true
      · rw [if_pos hv]
        intro heq
        have hlists := Option.some_injective _ heq
        have hgd := congrArg (fun l => l.getD j 0) hlists
        simp only at hgd
        rw [fallbackXor_getD _ _ j (by rw [fallbackXor_length]; exact hj),
          fallbackXor_getD _ _ j hj] at hgd
        have hzero : (fallbackKey pw1).getD (j % (fallbackKey pw1).length) 0 ^^^
            (fallbackKey pw2).getD (j % (fallbackKey pw2).length) 0 = 0 := by
          have h2 : p.getD j 0 ^^^
              ((fallbackKey pw1).getD (j % (fallbackKey pw1).length) 0 ^^^
                (fallbackKey pw2).getD (j % (fallbackKey pw2).length) 0) =
              p.getD j 0 ^^^ 0 := by
            rw [← Nat.xor_assoc, hgd, Nat.xor_zero]
          have h3 := congrArg (fun t => p.getD j 0 ^^^ t) h2
          simpa [← Nat.xor_assoc] using h3
        exact hne (by simpa [Nat.xor_eq_zero] using hzero)
      · rw [if_neg hv]
        simp

/-- Witness for C3 amended: the fallback keys of the one-byte passwords
1 and 2 are 32-fold repetitions of those bytes, differing at index 0 of
the one-byte payload. -/
theorem C3_wrong_password_amended_witness :
    encrypt false (fun pw _ => pw) (fun k _ _ => k.headD 0)
        [5] [1] (List.replicate 16 0) (List.replicate 12 0) =
        some (MAGIC_BYTES ++ List.replicate 16 0 ++ List.replicate 12 0 ++
          fallbackXor (fallbackKey [1]) [5]) ∧
      decrypt false (fun pw _ => pw) (fun k _ _ => k.headD 0)
          (MAGIC_BYTES ++ List.replicate 16 0 ++ List.replicate 12 0 ++
            fallbackXor (fallbackKey [1]) [5]) [2] ≠
        some [5] :=
  C3_wrong_password_amended (fun pw _ => pw) (fun k _ _ => k.headD 0)
    [5] [1] [2] (List.replicate 16 0) (List.replicate 12 0)
    (by decide) (by decide) (by decide) ⟨0, by decide, by decide⟩

/-- C4 counterexample: the bare 11-byte magic header is shorter than the
fixed 39-byte header, yet decrypt (fallback branch) does not fail on it:
the code checks only the magic prefix, Python slicing yields empty salt,
nonce and ciphertext, and the empty byte string decodes to the empty
string, so the claimed minimum-length condition is not enforced. -/
theorem C4_open_validation_counterexample :
    MAGIC_BYTES.length < 39 ∧
      decrypt false (fun pw _ => pw) (fun k _ _ => k.headD 0) MAGIC_BYTES [0] = some [] := by
  constructor
  · decide
  · decide

/-- C4 amended: the only format check is the 11-byte magic prefix.  A
missing prefix always raises, and there is no minimum-length check:
short magic-prefixed blobs are parsed with clamping slices.  But a
magic-prefixed blob can still raise for non-format reasons, so "exactly
when" fails in the other direction too: in the CRYPTO branch every blob
raises at ChaCha20's 128-bit nonce validation (the parsed nonce slice
has at most 12 bytes), and in the fallback branch decryption raises
exactly when the empty-password key meets a nonempty ciphertext
(ZeroDivisionError) or the decrypted bytes are not valid UTF-8
(UnicodeDecodeError). -/
theorem C4_open_validation_amended :
    (∀ (available : Bool) (kdf : List ℕ → List ℕ → List ℕ)
        (ks : List ℕ → List ℕ → ℕ → ℕ) (blob pw : List ℕ),
        blob.take 11 ≠ MAGIC_BYTES → decrypt available kdf ks blob pw = none) ∧
      (∀ (kdf : List ℕ → List ℕ → List ℕ) (ks : List ℕ → List ℕ → ℕ → ℕ)
        (blob pw : List ℕ), decrypt true kdf ks blob pw = none) ∧
      (∀ (kdf : List ℕ → List ℕ → List ℕ) (ks : List ℕ → List ℕ → ℕ → ℕ)
        (blob pw : List ℕ), blob.take 11 = MAGIC_BYTES →
        (decrypt false kdf ks blob pw = none ↔
          (blob.drop 39 ≠ [] ∧ fallbackKey pw = []) ∨
            validUtf8 (fallbackXor (fallbackKey pw) (blob.drop 39)) = false)) := by
  refine ⟨?_, ?_, ?_⟩
  · intro available kdf ks blob pw h
    simp [decrypt, h]
  · intro kdf ks blob pw
    by_cases h : blob.take 11 = MAGIC_BYTES
    · simp [decrypt, h]
      intro h16
      exfalso
      omega
    · simp [decrypt, h]
  · intro kdf ks blob pw h
    have hct : (blob.drop 11).drop 28 = blob.drop 39 := by
      rw [List.drop_drop]
    simp only [decrypt, h, if_pos rfl, hct]
    by_cases hg : blob.drop 39 ≠ [] ∧ fallbackKey pw = []
    · simp [hg]
    · by_cases hv : validUtf8 (fallbackXor (fallbackKey pw) (blob.drop 39)) = true
      · simp [hg, hv]
      · simp [hg, hv]

/-- C6 counterexample: with the cryptography library available (the
CRYPTO branch) seal returns nothing at all, for this concrete plaintext,
password, salt and nonce: algorithms.ChaCha20 rejects the code's 12-byte
nonce with ValueError before any blob is built, so "seal returns exactly
MAGIC + SALT + NONCE + CIPHERTEXT" fails. -/
theorem C6_sealed_blob_format_counterexample :
    encrypt true (fun pw _ => pw) (fun k _ _ => k.headD 0)
      [72, 73] [97] (List.replicate 16 0) (List.replicate 12 0) = none := by
  decide

/-- C6 amended: whenever CryptoHelper.encrypt does return a blob (it
raises on every call in the CRYPTO branch because of the 12-byte nonce,
and on an empty password with nonempty plaintext in the fallback
branch), that blob is exactly MAGIC(11 bytes), then the 16-byte salt,
then the 12-byte nonce, then a ciphertext of the same length as the
plaintext — hence of total length 39 + len(plaintext), starting with
MAGIC. -/
theorem C6_sealed_blob_format_amended (available : Bool)
    (kdf : List ℕ → List ℕ → List ℕ) (ks : List ℕ → List ℕ → ℕ → ℕ)
    (p pw salt nonce blob : List ℕ)
    (hs : salt.length = 16) (hn : nonce.length = 12)
    (henc : encrypt available kdf ks p pw salt nonce = some blob) :
    blob.take 11 = MAGIC_BYTES ∧ blob.length = 39 + p.length ∧
      ∃ ct : List ℕ, ct.length = p.length ∧
        blob = MAGIC_BYTES ++ salt ++ nonce ++ ct := by
  cases available with
  | true =>
    rw [show encrypt true kdf ks p pw salt nonce =
        (if nonce.length = 16 then
          some (MAGIC_BYTES ++ salt ++ nonce ++ xorStream (ks (kdf pw salt) nonce) 0 p)
        else none) from rfl, hn] at henc
    simp at henc
  | false =>
    by_cases hg : p ≠ [] ∧ fallbackKey pw = []
    · rw [show encrypt false kdf ks p pw salt nonce =
          (if p ≠ [] ∧ fallbackKey pw = [] then none
          else some (MAGIC_BYTES ++ salt ++ nonce ++ fallbackXor (fallbackKey pw) p))
          from rfl, if_pos hg] at henc
      simp at henc
    · rw [show encrypt false kdf ks p pw salt nonce =
          (if p ≠ [] ∧ fallbackKey pw = [] then none
          else some (MAGIC_BYTES ++ salt ++ nonce ++ fallbackXor (fallbackKey pw) p))
          from rfl, if_neg hg] at henc
      have hblob : blob = MAGIC_BYTES ++ salt ++ nonce ++ fallbackXor (fallbackKey pw) p :=
        (Option.some_injective _ henc).symm
      subst hblob
      refine ⟨sealed_take11 _ _ _, ?_,
        fallbackXor (fallbackKey pw) p, fallbackXor_length _ _, rfl⟩
      simp [hs, hn, fallbackXor_length, MAGIC_BYTES]
      omega

/-- Witness for C6 amended at a concrete fallback-branch call: password
byte 7 gives the 32-fold repeated key, and the payload [10, 20, 30]
seals to the 42-byte blob ending in [13, 19, 25]. -/
theorem C6_sealed_blob_format_amended_witness :
    (MAGIC_BYTES ++ List.replicate 16 1 ++ List.replicate 12 2 ++
        ([13, 19, 25] : List ℕ)).take 11 = MAGIC_BYTES ∧
      (MAGIC_BYTES ++ List.replicate 16 1 ++ List.replicate 12 2 ++
        ([13, 19, 25] : List ℕ)).length = 39 + 3 ∧
      ∃ ct : List ℕ, ct.length = 3 ∧
        MAGIC_BYTES ++ List.replicate 16 1 ++ List.replicate 12 2 ++
          ([13, 19, 25] : List ℕ) =
          MAGIC_BYTES ++ List.replicate 16 1 ++ List.replicate 12 2 ++ ct :=
  C6_sealed_blob_format_amended false (fun pw _ => pw) (fun k _ _ => k.headD 0)
    [10, 20, 30] [7] (List.replicate 16 1) (List.replicate 12 2)
    (MAGIC_BYTES ++ List.replicate 16 1 ++ List.replicate 12 2 ++ [13, 19, 25])
    (by decide) (by decide) (by decide)

/-! ## Length bookkeeping for the signal chain -/

theorem length_flatMap_const {α β : Type} (l : List α) (f : α → List β) (m : ℕ)
    (hf : ∀ x, (f x).length = m) : (l.flatMap f).length = l.length * m := by
  induction l with
  | nil => simp
  | cons a rest ih => simp [List.flatMap_cons, hf, ih]; ring

theorem byteBits_length (b : ℕ) : (byteBits b).length = 8 := by
  simp [byteBits]

theorem bytesToBits_length (l : List ℕ) : (bytesToBits l).length = l.length * 8 :=
  length_flatMap_const l byteBits 8 byteBits_length

theorem PNC_KEY_length : PNC_KEY.length = 31 := rfl

theorem spreadBits_length (bits : List ℕ) : (spreadBits bits).length = bits.length * 31 :=
  length_flatMap_const bits _ 31 (fun _ => by simp [PNC_KEY_length])

theorem basebandList_length (bits : List ℕ) (spc : ℕ) :
    (basebandList bits spc).length = bits.length * 31 * spc := by
  rw [basebandList, length_flatMap_const _ _ spc (fun _ => List.length_replicate _ _),
    spreadBits_length]

theorem bitsToBytes_length (bits : List ℕ) :
    (bitsToBytes bits).length = bits.length / 8 := by
  simp [bitsToBytes]

theorem studioModulated_length (sr : ℕ) (msg : List ℕ) :
    (studioModulated sr msg).len = (4 + msg.length) * 8 * 31 * samplesPerChip sr := by
  show (basebandList (bytesToBits (studioFrame msg)) (samplesPerChip sr)).length = _
  rw [basebandList_length, bytesToBits_length]
  have h4 : (studioFrame msg).length = 4 + msg.length := by
    simp [studioFrame, lengthBytes]
    omega
  rw [h4]

/-! ## C5: extractor failure behaviour -/

/-- C5 counterexample: a 40-bit sequence whose 32-bit header declares a
2-byte payload while only one byte remains.  The extractor returns that
single partial byte rather than the empty byte string the claim
requires. -/
theorem C5_extractor_failure_counterexample :
    studioAssemble (bytesToBits [0, 0, 0, 2, 65]) = [65] ∧ ([65] : List ℕ) ≠ [] := by
  constructor
  · decide
  · decide

/-- C5 amended: with fewer than 32 bits the extractor returns the empty
byte string; otherwise it returns extracted_bytes[4 : 4+N] for the
declared length N, whose size is min N (available bytes - 4) — a
truncated partial payload when fewer than N*8 bits remain, never an
out-of-bounds read. -/
theorem C5_extractor_failure_amended (bits : List ℕ) :
    (bits.length < 32 → studioAssemble bits = []) ∧
      (32 ≤ bits.length →
        (studioAssemble bits).length =
          min ((bitsToBytes bits).getD 0 0 * 2 ^ 24 + (bitsToBytes bits).getD 1 0 * 2 ^ 16 +
              (bitsToBytes bits).getD 2 0 * 2 ^ 8 + (bitsToBytes bits).getD 3 0)
            (bits.length / 8 - 4)) := by
  constructor
  · intro h
    have hlen : (bitsToBytes bits).length < 4 := by
      rw [bitsToBytes_length]; omega
    simp [studioAssemble, if_pos hlen]
  · intro h
    have h4 : ¬ bits.length / 8 < 4 := by omega
    simp only [studioAssemble, bitsToBytes_length, if_neg h4, List.length_take,
      List.length_drop]

/-- Witness for C5 amended at the empty bit sequence. -/
theorem C5_extractor_failure_amended_witness :
    studioAssemble [] = [] :=
  (C5_extractor_failure_amended []).1 (by decide)

/-! ## C10: decode-size caps -/

theorem studioBits_length (audio : Arr) (sr : ℕ) :
    (studioBits audio sr).length = min (audio.len / (31 * samplesPerChip sr)) 2080 := by
  simp [studioBits, PNC_KEY_length]

theorem maskerBits_length (freq : ℝ) (audio : Arr) :
    (maskerBits freq audio).length = min (audio.len / 1364) 4096 := by
  simp [maskerBits, PNC_KEY_length, samplesPerChip]

/-- C10: the studio extraction loop decodes at most 32 + 8*256 bits and
the masker loop at most 4096 bits, so for every input audio the studio
payload is at most 256 bytes and the masker payload at most 512 bytes,
regardless of the audio length or the decoded length prefix. -/
theorem C10_decode_size_cap (audio : Arr) (freq : ℝ) :
    (studioExtract audio 44100).length ≤ 256 ∧ (maskerExtract freq audio).length ≤ 512 := by
  constructor
  · have hb : (studioBits audio 44100).length ≤ 2080 := by
      rw [studioBits_length]; omega
    have hbytes : (bitsToBytes (studioBits audio 44100)).length ≤ 260 := by
      rw [bitsToBytes_length]; omega
    rw [studioExtract, studioAssemble]
    by_cases h : (bitsToBytes (studioBits audio 44100)).length < 4
    · simp [h]
    · simp only [if_neg h, List.length_take, List.length_drop]
      omega
  · rw [maskerExtract, bitsToBytes_length, maskerBits_length]
    omega

/-! ## C8: empty payload in the pure-noise masking path -/

/-- C8: on the empty payload the pure-noise path
DSSSMasker.generate_masked_audio produces an empty modulated array, and
the reduction np.max(np.abs(masked)) over that empty array raises a
ValueError (modelled as none): the encode path does not accept the empty
payload, contradicting the boundary property of the spec. -/
theorem C8_empty_payload_masker_raises (freq snr : ℝ) (noise : ℕ → ℝ) :
    generateMaskedAudio freq snr noise [] = none := by
  have hlen : (maskerModulated freq []).len = 0 := by
    simp [maskerModulated, basebandList_length, bytesToBits_length]
  simp only [generateMaskedAudio, applyNoiseMasking, hlen, if_pos rfl]
  simp [hlen]

/-! ## Bounds on array maxima and signal values -/

theorem foldr_max_le (l : List ℝ) (c : ℝ) (h0 : 0 ≤ c) (h : ∀ x ∈ l, x ≤ c) :
    l.foldr max 0 ≤ c := by
  induction l with
  | nil => simpa using h0
  | cons a rest ih =>
    exact max_le (h a (by simp)) (ih fun x hx => h x (by simp [hx]))

theorem le_foldr_max (l : List ℝ) (x : ℝ) (hx : x ∈ l) : x ≤ l.foldr max 0 := by
  induction l with
  | nil => cases hx
  | cons a rest ih =>
    rcases List.mem_cons.mp hx with h | h
    · exact h ▸ le_max_left _ _
    · exact (ih h).trans (le_max_right _ _)

theorem maxAbsVal_le (a : Arr) (c : ℝ) (h0 : 0 ≤ c)
    (h : ∀ i, i < a.len → |a.val i| ≤ c) : maxAbsVal a ≤ c := by
  apply foldr_max_le _ _ h0
  intro x hx
  obtain ⟨i, hi, rfl⟩ := List.mem_map.mp hx
  exact h i (List.mem_range.mp hi)

theorem le_maxAbsVal (a : Arr) (i : ℕ) (hi : i < a.len) : |a.val i| ≤ maxAbsVal a :=
  le_foldr_max _ _ (List.mem_map.mpr ⟨i, List.mem_range.mpr hi, rfl⟩)

theorem PNC_mem (x : ℝ) (hx : x ∈ PNC_KEY) : x = 1 ∨ x = -1 := by
  obtain ⟨b, hb, rfl⟩ := List.mem_map.mp hx
  simp only [PNC_BITS, List.mem_cons, List.not_mem_nil, or_false] at hb
  rcases hb with h | h | h | h | h | h | h | h | h | h | h | h | h | h | h | h |
    h | h | h | h | h | h | h | h | h | h | h | h | h | h | h <;> subst h <;> norm_num

theorem spreadBits_mem (bits : List ℕ) (x : ℝ) (hx : x ∈ spreadBits bits) :
    x = 1 ∨ x = -1 := by
  simp only [spreadBits, List.mem_flatMap, List.mem_map] at hx
  obtain ⟨bit, _, c, hc, rfl⟩ := hx
  rcases PNC_mem c hc with h | h <;> subst h <;> by_cases hb : bit = 1 <;> simp [hb]

theorem basebandList_mem (bits : List ℕ) (spc : ℕ) (x : ℝ)
    (hx : x ∈ basebandList bits spc) : x = 1 ∨ x = -1 := by
  simp only [basebandList, List.mem_flatMap] at hx
  obtain ⟨y, hy, hxy⟩ := hx
  rw [List.eq_of_mem_replicate hxy]
  exact spreadBits_mem bits y hy

theorem basebandList_getD_abs_le (bits : List ℕ) (spc i : ℕ) :
    |(basebandList bits spc).getD i 0| ≤ 1 := by
  by_cases h : i < (basebandList bits spc).length
  · have hm : (basebandList bits spc).getD i 0 ∈ basebandList bits spc := by
      rw [List.getD_eq_getElem _ _ h]
      exact List.getElem_mem h
    rcases basebandList_mem bits spc _ hm with he | he <;> rw [he] <;> norm_num
  · rw [List.getD_eq_default _ _ (le_of_not_lt h)]
    norm_num

theorem abs_carrierWave_le_one (freq : ℝ) (sr n i : ℕ) : |carrierWave freq sr n i| ≤ 1 :=
  abs_le.mpr ⟨Real.neg_one_le_sin _, Real.sin_le_one _⟩

theorem studioModulated_val_abs_le (sr : ℕ) (msg : List ℕ) (i : ℕ) :
    |(studioModulated sr msg).val i| ≤ 1 := by
  show |(basebandList (bytesToBits (studioFrame msg)) (samplesPerChip sr)).getD i 0 *
    carrierWave 12000 sr _ i| ≤ 1
  rw [abs_mul]
  exact mul_le_one₀ (basebandList_getD_abs_le _ _ _) (abs_nonneg _) (abs_carrierWave_le_one _ _ _ _)

theorem rpow_neg20 : (10 : ℝ) ^ ((-20 : ℝ) / 10) = 1 / 100 := by
  rw [show ((-20 : ℝ) / 10) = -((2 : ℕ) : ℝ) by norm_num,
    Real.rpow_neg (by norm_num : (0:ℝ) ≤ 10), Real.rpow_natCast]
  norm_num

theorem studioSignalAmplitude_neg20 : studioSignalAmplitude (-20) = 1 / 20 := by
  rw [studioSignalAmplitude, rpow_neg20,
    show (1 / 100 : ℝ) = (1 / 10) ^ 2 by norm_num,
    Real.sqrt_sq (by norm_num : (0:ℝ) ≤ 1 / 10)]
  norm_num

theorem maskerModulated_length (freq : ℝ) (p : List ℕ) :
    (maskerModulated freq p).len = p.length * 8 * 31 * 44 := by
  show (basebandList (bytesToBits p) (samplesPerChip 44100)).length = _
  rw [basebandList_length, bytesToBits_length]
  rfl

/-! ## C7: frame effect of carrier-audio embedding -/

theorem studioMixed_len (sr : ℕ) (carrier : Arr) (msg : List ℕ) (snr : ℝ) :
    (studioMixed sr carrier msg snr).len = carrier.len := rfl

theorem studioMixed_val (sr : ℕ) (carrier : Arr) (msg : List ℕ) (snr : ℝ) (i : ℕ) :
    (studioMixed sr carrier msg snr).val i =
      if i < min (studioModulated sr msg).len carrier.len
      then carrier.val i + (studioModulated sr msg).val i * studioSignalAmplitude snr
      else carrier.val i := rfl

theorem studioEmbed_val_of_max_le (sr : ℕ) (carrier : Arr) (msg : List ℕ) (snr : ℝ)
    (hmax : maxAbsVal (studioMixed sr carrier msg snr) ≤ 1) (i : ℕ) :
    (studioEmbed sr carrier msg snr).val i = (studioMixed sr carrier msg snr).val i := by
  have hno : ¬ 1 < maxAbsVal (studioMixed sr carrier msg snr) := not_lt.mpr hmax
  show (if 1 < maxAbsVal (studioMixed sr carrier msg snr)
    then Arr.mk (studioMixed sr carrier msg snr).len
      (fun i => (studioMixed sr carrier msg snr).val i /
        maxAbsVal (studioMixed sr carrier msg snr) * 0.99)
    else studioMixed sr carrier msg snr).val i = _
  rw [if_neg hno]

theorem studioEmbed_val_of_max_gt (sr : ℕ) (carrier : Arr) (msg : List ℕ) (snr : ℝ)
    (hmax : 1 < maxAbsVal (studioMixed sr carrier msg snr)) (i : ℕ) :
    (studioEmbed sr carrier msg snr).val i =
      (studioMixed sr carrier msg snr).val i /
        maxAbsVal (studioMixed sr carrier msg snr) * 0.99 := by
  show (if 1 < maxAbsVal (studioMixed sr carrier msg snr)
    then Arr.mk (studioMixed sr carrier msg snr).len
      (fun i => (studioMixed sr carrier msg snr).val i /
        maxAbsVal (studioMixed sr carrier msg snr) * 0.99)
    else studioMixed sr carrier msg snr).val i = _
  rw [if_pos hmax]

/-- The concrete carrier used to refute C7: 43649 samples, all zero
except the last, which is 100. -/
def bigCarrier : Arr := ⟨43649, fun i => if i = 43648 then 100 else 0⟩

theorem bigCarrier_len : bigCarrier.len = 43649 := rfl

theorem bigCarrier_val (i : ℕ) : bigCarrier.val i = if i = 43648 then 100 else 0 := rfl

theorem emptyModulated_len : (studioModulated 44100 []).len = 43648 := by
  rw [studioModulated_length]
  norm_num [samplesPerChip]

theorem bigCarrier_mixed_val_lt (i : ℕ) (hi : i < 43648) :
    (studioMixed 44100 bigCarrier [] (-20)).val i =
      (studioModulated 44100 []).val i * (1 / 20) := by
  rw [studioMixed_val]
  have hlt : i < min (studioModulated 44100 []).len bigCarrier.len := by
    rw [emptyModulated_len, bigCarrier_len]
    omega
  rw [if_pos hlt, bigCarrier_val, if_neg (by omega : ¬ i = 43648),
    studioSignalAmplitude_neg20, zero_add]

theorem bigCarrier_mixed_val_last :
    (studioMixed 44100 bigCarrier [] (-20)).val 43648 = 100 := by
  rw [studioMixed_val]
  have hge : ¬ 43648 < min (studioModulated 44100 []).len bigCarrier.len := by
    rw [emptyModulated_len, bigCarrier_len]
    omega
  rw [if_neg hge, bigCarrier_val, if_pos rfl]

theorem bigCarrier_mixed_max :
    maxAbsVal (studioMixed 44100 bigCarrier [] (-20)) = 100 := by
  refine le_antisymm (maxAbsVal_le _ _ (by norm_num) ?_) ?_
  · intro i hi
    rw [studioMixed_len, bigCarrier_len] at hi
    by_cases h : i < 43648
    · rw [bigCarrier_mixed_val_lt i h, abs_mul,
        abs_of_pos (by norm_num : (0:ℝ) < 1 / 20)]
      have h1 := studioModulated_val_abs_le 44100 [] i
      have h2 : |(studioModulated 44100 []).val i| * (1 / 20) ≤ 1 * (1 / 20) :=
        mul_le_mul_of_nonneg_right h1 (by norm_num)
      linarith
    · have he : i = 43648 := by omega
      rw [he, bigCarrier_mixed_val_last]
      norm_num
  · have h1 := le_maxAbsVal (studioMixed 44100 bigCarrier [] (-20)) 43648
      (by rw [studioMixed_len, bigCarrier_len]; omega)
    rw [bigCarrier_mixed_val_last] at h1
    calc (100 : ℝ) = |100| := by norm_num
    _ ≤ _ := h1

/-- C7 counterexample: a carrier of 43649 samples whose last sample is
100, with the empty message (whose modulated signal spans the first 43648
samples) at SNR -20 dB.  The peak magnitude 100 exceeds 1, so the final
clip normalization rescales the whole output, and the sample beyond the
embedded region comes back 0.99, not the original carrier value 100. -/
theorem C7_frame_effect_counterexample :
    (studioModulated 44100 []).len ≤ 43648 ∧ 43648 < bigCarrier.len ∧
      (studioEmbed 44100 bigCarrier [] (-20)).val 43648 ≠ bigCarrier.val 43648 := by
  refine ⟨le_of_eq emptyModulated_len, by rw [bigCarrier_len]; omega, ?_⟩
  rw [studioEmbed_val_of_max_gt 44100 bigCarrier [] (-20)
      (by rw [bigCarrier_mixed_max]; norm_num) 43648,
    bigCarrier_mixed_max, bigCarrier_mixed_val_last, bigCarrier_val, if_pos rfl]
  norm_num

/-- C7 amended: samples beyond the embedded region equal the carrier
samples exactly when the mixed output's peak magnitude stays at or below
1.0 (so the clip normalization does not fire); when the peak exceeds 1.0
the final rescaling by 0.99/max changes every sample, including those
beyond the embedded region. -/
theorem C7_frame_effect_amended (sr : ℕ) (carrier : Arr) (msg : List ℕ) (snr : ℝ) (i : ℕ)
    (hi : (studioModulated sr msg).len ≤ i)
    (hmax : maxAbsVal (studioMixed sr carrier msg snr) ≤ 1) :
    (studioEmbed sr carrier msg snr).val i = carrier.val i := by
  rw [studioEmbed_val_of_max_le sr carrier msg snr hmax i, studioMixed_val]
  have hge : ¬ i < min (studioModulated sr msg).len carrier.len := by omega
  rw [if_neg hge]

/-- The all-zero carrier used in the C7 witness. -/
def zeroCarrier : Arr := ⟨43649, fun _ => 0⟩

/-- Witness for C7 amended: an all-zero carrier one sample longer than
the empty message's modulated signal; the mixed peak is at most 1/20, so
the sample beyond the region is returned unchanged. -/
theorem C7_frame_effect_amended_witness :
    (studioEmbed 44100 zeroCarrier [] (-20)).val 43648 = zeroCarrier.val 43648 := by
  apply C7_frame_effect_amended
  · rw [emptyModulated_len]
  · apply maxAbsVal_le _ _ (by norm_num)
    intro i hi
    rw [studioMixed_val]
    by_cases h : i < min (studioModulated 44100 []).len zeroCarrier.len
    · rw [if_pos h]
      show |0 + (studioModulated 44100 []).val i * studioSignalAmplitude (-20)| ≤ 1
      rw [studioSignalAmplitude_neg20, zero_add, abs_mul,
        abs_of_pos (by norm_num : (0:ℝ) < 1 / 20)]
      have h1 := studioModulated_val_abs_le 44100 [] i
      have h2 : |(studioModulated 44100 []).val i| * (1 / 20) ≤ 1 * (1 / 20) :=
        mul_le_mul_of_nonneg_right h1 (by norm_num)
      linarith
    · rw [if_neg h]
      show |(0 : ℝ)| ≤ 1
      norm_num

/-! ## C9: SNR scaling of the carrier-embedding amplitude -/

theorem maskerMixed_val (freq snr : ℝ) (p : List ℕ) (c : Arr) (i : ℕ) :
    (maskerMixed freq snr p c).val i =
      if i < min (maskerModulated freq p).len c.len
      then c.val i + (maskerModulated freq p).val i * maskerSignalAmplitude snr c
      else c.val i := rfl

/-- C9 counterexample: in the studio implementation the scalar multiplied
onto the modulated signal is sqrt(10^(snr/10)) * 0.5, independent of the
carrier; on an all-zero one-sample carrier the claimed formula
sqrt(carrier_power * 10^(snr/10)) gives 0 while the studio scalar is
1/20.  The first conjunct exhibits the scalar in the mixing step. -/
theorem C9_snr_scaling_counterexample :
    (studioMixed 44100 ⟨1, fun _ => 0⟩ [] (-20)).val 0 =
        (Arr.mk 1 (fun _ => 0)).val 0 +
          (studioModulated 44100 []).val 0 * studioSignalAmplitude (-20) ∧
      studioSignalAmplitude (-20) ≠
        Real.sqrt (carrierPower ⟨1, fun _ => 0⟩ * (10 : ℝ) ^ ((-20 : ℝ) / 10)) := by
  constructor
  · have h : (0 : ℕ) < min (studioModulated 44100 []).len (Arr.mk 1 (fun _ => 0)).len := by
      rw [emptyModulated_len]
      show 0 < min 43648 1
      omega
    rw [studioMixed_val, if_pos h]
  · rw [studioSignalAmplitude_neg20]
    have hcp : carrierPower ⟨1, fun _ => 0⟩ = 0 := by
      simp [carrierPower]
    rw [hcp, zero_mul, Real.sqrt_zero]
    norm_num

/-- C9 amended: the masker implementation's scalar equals the claimed
sqrt(carrier_power * 10^(snr/10)) (shown in the mixing step), while the
studio implementation's scalar sqrt(10^(snr/10)) * 0.5 coincides with the
claimed formula exactly when the carrier power is 1/4. -/
theorem C9_snr_scaling_amended :
    (∀ (freq snr : ℝ) (p : List ℕ) (c : Arr) (i : ℕ),
        i < min (maskerModulated freq p).len c.len →
        (maskerMixed freq snr p c).val i =
          c.val i + (maskerModulated freq p).val i *
            Real.sqrt (carrierPower c * (10 : ℝ) ^ (snr / 10))) ∧
      (∀ (snr cp : ℝ), 0 ≤ cp →
        (studioSignalAmplitude snr = Real.sqrt (cp * (10 : ℝ) ^ (snr / 10)) ↔ cp = 1 / 4)) := by
  constructor
  · intro freq snr p c i hi
    rw [maskerMixed_val, if_pos hi, maskerSignalAmplitude]
  · intro snr cp hcp
    have hL : (0 : ℝ) < (10 : ℝ) ^ (snr / 10) := Real.rpow_pos_of_pos (by norm_num) _
    have hamp : studioSignalAmplitude snr = Real.sqrt ((1 / 4) * (10 : ℝ) ^ (snr / 10)) := by
      rw [studioSignalAmplitude, Real.sqrt_mul (by norm_num : (0:ℝ) ≤ 1 / 4),
        show Real.sqrt (1 / 4) = 1 / 2 by
          rw [show (1 / 4 : ℝ) = (1 / 2) ^ 2 by norm_num,
            Real.sqrt_sq (by norm_num : (0:ℝ) ≤ 1 / 2)]]
      ring
    rw [hamp]
    rw [Real.sqrt_inj (by positivity) (mul_nonneg hcp hL.le)]
    constructor
    · intro h
      have := mul_right_cancel₀ (ne_of_gt hL) h
      linarith
    · intro h
      rw [h]

/-- Witness for C9 amended, discharging both conjuncts at concrete
inputs: the masker mixing identity at sample 0 of a one-sample carrier
with a one-byte payload, and the studio-scalar characterization at
snr = 0, carrier power 0. -/
theorem C9_snr_scaling_amended_witness :
    ((maskerMixed 12000 (-20) [65] ⟨1, fun _ => 1⟩).val 0 =
        (Arr.mk 1 (fun _ => 1)).val 0 +
          (maskerModulated 12000 [65]).val 0 *
            Real.sqrt (carrierPower ⟨1, fun _ => 1⟩ * (10 : ℝ) ^ ((-20 : ℝ) / 10))) ∧
      (studioSignalAmplitude 0 = Real.sqrt (0 * (10 : ℝ) ^ ((0 : ℝ) / 10)) ↔ (0 : ℝ) = 1 / 4) :=
  ⟨C9_snr_scaling_amended.1 12000 (-20) [65] ⟨1, fun _ => 1⟩ 0
      (by rw [maskerModulated_length]; norm_num),
    C9_snr_scaling_amended.2 0 0 (by norm_num)⟩

/-! ## Index formulas for the spreading chain -/

theorem getD_append_lt {α : Type} (l l2 : List α) (i : ℕ) (d : α) (h : i < l.length) :
    (l ++ l2).getD i d = l.getD i d := by
  rw [List.getD_eq_getElem _ _ (by simp; omega), List.getD_eq_getElem _ _ h,
    List.getElem_append_left h]

theorem getD_append_ge {α : Type} (l l2 : List α) (i : ℕ) (d : α) (h : l.length ≤ i) :
    (l ++ l2).getD i d = l2.getD (i - l.length) d := by
  by_cases h2 : i - l.length < l2.length
  · rw [List.getD_eq_getElem _ _ (by simp; omega), List.getD_eq_getElem _ _ h2,
      List.getElem_append_right h]
  · rw [List.getD_eq_default _ _ (by simp; omega), List.getD_eq_default _ _ (by omega)]

theorem getD_map_lt {α β : Type} (l : List α) (g : α → β) (i : ℕ) (hi : i < l.length)
    (d : β) (a₀ : α) : (l.map g).getD i d = g (l.getD i a₀) := by
  rw [List.getD_eq_getElem _ _ (by simpa using hi), List.getD_eq_getElem _ _ hi,
    List.getElem_map]

theorem getD_range {n i : ℕ} (d : ℕ) (hi : i < n) : (List.range n).getD i d = i := by
  rw [List.getD_eq_getElem _ _ (by simpa using hi), List.getElem_range]

theorem getD_replicate {α : Type} (n i : ℕ) (a d : α) (hi : i < n) :
    (List.replicate n a).getD i d = a := by
  rw [List.getD_eq_getElem _ _ (by simpa using hi), List.getElem_replicate]

theorem getD_flatMap_const {α β : Type} (l : List α) (f : α → List β) (m : ℕ) (hm : 0 < m)
    (hf : ∀ x, (f x).length = m) (d : β) (a₀ : α) :
    ∀ (i : ℕ), i < l.length * m →
      (l.flatMap f).getD i d = (f (l.getD (i / m) a₀)).getD (i % m) d := by
  induction l with
  | nil => intro i hi; simp at hi
  | cons a t ih =>
    intro i hi
    rw [List.flatMap_cons]
    rcases Nat.lt_or_ge i m with h | h
    · rw [getD_append_lt _ _ _ _ (by rw [hf]; exact h), Nat.div_eq_of_lt h,
        Nat.mod_eq_of_lt h, List.getD_cons_zero]
    · have hstep : (a :: t).length * m = t.length * m + m := by
        rw [List.length_cons]; ring
      have hi2 : i - m < t.length * m := by omega
      rw [getD_append_ge _ _ _ _ (by rw [hf]; exact h), hf, ih (i - m) hi2]
      have hdiv : i / m = (i - m) / m + 1 := by
        conv_lhs => rw [show i = (i - m) + m by omega]
        rw [Nat.add_div_right _ hm]
      have hmod : i % m = (i - m) % m := by
        conv_lhs => rw [show i = (i - m) + m by omega]
        rw [Nat.add_mod_right]
      rw [hdiv, hmod, List.getD_cons_succ]

theorem bytesToBits_getD (data : List ℕ) (k : ℕ) (hk : k < data.length * 8) :
    (bytesToBits data).getD k 0 = (data.getD (k / 8) 0 >>> (7 - k % 8)) &&& 1 := by
  rw [bytesToBits, getD_flatMap_const data byteBits 8 (by omega) byteBits_length 0 0 k hk,
    byteBits]
  have h8 : k % 8 < 8 := Nat.mod_lt _ (by omega)
  rw [getD_map_lt _ _ _ (by simpa using h8) _ 0, getD_range 0 h8]

theorem spreadBits_getD (bits : List ℕ) (j : ℕ) (hj : j < bits.length * 31) :
    (spreadBits bits).getD j 0 =
      PNC_KEY.getD (j % 31) 0 * (if bits.getD (j / 31) 0 = 1 then 1 else -1) := by
  rw [spreadBits, getD_flatMap_const bits _ 31 (by omega)
    (fun _ => by rw [List.length_map, PNC_KEY_length]) 0 0 j hj]
  have h31 : j % 31 < 31 := Nat.mod_lt _ (by omega)
  rw [getD_map_lt _ _ _ (by rw [PNC_KEY_length]; exact h31) _ 0]

theorem basebandList_getD (bits : List ℕ) (spc : ℕ) (hspc : 0 < spc) (j : ℕ)
    (hj : j < bits.length * 31 * spc) :
    (basebandList bits spc).getD j 0 =
      PNC_KEY.getD (j / spc % 31) 0 * (if bits.getD (j / spc / 31) 0 = 1 then 1 else -1) := by
  rw [basebandList, getD_flatMap_const (spreadBits bits) _ spc hspc
    (fun _ => List.length_replicate _ _) 0 0 j (by rw [spreadBits_length]; exact hj),
    getD_replicate _ _ _ _ (Nat.mod_lt _ hspc),
    spreadBits_getD bits _ ((Nat.div_lt_iff_lt_mul hspc).mpr hj)]

/-! ## Sum decomposition and carrier positivity -/

theorem sum_grid (f : ℕ → ℝ) (a b : ℕ) :
    ∑ j in Finset.range (a * b), f j =
      ∑ i in Finset.range a, ∑ u in Finset.range b, f (i * b + u) := by
  induction a with
  | zero => simp
  | succ a ih =>
    rw [Nat.succ_mul, Finset.sum_range_add, ih, Finset.sum_range_succ]

theorem PNC_getD_mul_self (i : ℕ) (hi : i < 31) :
    PNC_KEY.getD i 0 * PNC_KEY.getD i 0 = 1 := by
  have hm : PNC_KEY.getD i 0 ∈ PNC_KEY := by
    rw [List.getD_eq_getElem _ _ (by rw [PNC_KEY_length]; exact hi)]
    exact List.getElem_mem _
  rcases PNC_mem _ hm with h | h <;> rw [h] <;> norm_num

/-- Two consecutive samples of the demodulation carrier replica are never
both zero: the phase increment per sample is pi times
24000*n/(44100*(n-1)), which lies strictly between 0 and 1 for n at least
3, so distinct integer multiples of pi cannot be hit twice in a row. -/
theorem carrier_pair_ne_zero (n : ℕ) (hn : 3 ≤ n) (j : ℕ) (_hj : j + 1 < n) :
    carrierWave 12000 44100 n j ≠ 0 ∨ carrierWave 12000 44100 n (j + 1) ≠ 0 := by
  by_contra hc
  push_neg at hc
  obtain ⟨h0, h1⟩ := hc
  rw [carrierWave, Real.sin_eq_zero_iff] at h0 h1
  obtain ⟨m1, hm1⟩ := h0
  obtain ⟨m2, hm2⟩ := h1
  have hn1 : ¬ n ≤ 1 := by omega
  rw [linspace, if_neg hn1] at hm1 hm2
  set D : ℝ := ((n - 1 : ℕ) : ℝ) with hD
  have hDval : D = (n : ℝ) - 1 := by
    rw [hD, Nat.cast_sub (by omega)]
    norm_num
  have hn3 : (3 : ℝ) ≤ (n : ℝ) := by exact_mod_cast hn
  have hDpos : 0 < D := by rw [hDval]; linarith
  have hpi := Real.pi_ne_zero
  have hkey : ((m2 : ℝ) - (m1 : ℝ)) * Real.pi =
      (24000 * (n : ℝ) / (44100 * D)) * Real.pi := by
    rw [sub_mul, hm1, hm2]
    push_cast
    field_simp
    ring
  have hint : (m2 : ℝ) - (m1 : ℝ) = 24000 * (n : ℝ) / (44100 * D) :=
    mul_right_cancel₀ hpi hkey
  have hlt : 24000 * (n : ℝ) / (44100 * D) < 1 := by
    rw [div_lt_one (by positivity)]
    rw [hDval]
    linarith
  have hpos : 0 < 24000 * (n : ℝ) / (44100 * D) := by positivity
  have hz1 : (0 : ℤ) < m2 - m1 := by
    have : (0 : ℝ) < ((m2 - m1 : ℤ) : ℝ) := by push_cast; rw [hint] at *; linarith [hpos]
    exact_mod_cast this
  have hz2 : m2 - m1 < 1 := by
    have : ((m2 - m1 : ℤ) : ℝ) < 1 := by push_cast; rw [hint] at *; linarith [hlt]
    exact_mod_cast this
  omega

theorem window_sum_pos (n : ℕ) (hn : 3 ≤ n) (pos w : ℕ) (hw : 2 ≤ w) (hwin : pos + w ≤ n) :
    0 < ∑ j in Finset.range w, (carrierWave 12000 44100 n (pos + j)) ^ 2 := by
  apply Finset.sum_pos' (fun j _ => sq_nonneg _)
  rcases carrier_pair_ne_zero n hn pos (by omega) with h | h
  · exact ⟨0, Finset.mem_range.mpr (by omega), by
      rw [Nat.add_zero]; exact pow_two_pos_of_ne_zero h⟩
  · exact ⟨1, Finset.mem_range.mpr (by omega), pow_two_pos_of_ne_zero h⟩

/-- Reassembling the eight MSB-first bits of a byte with the extraction
loop's shifted sum recovers the byte. -/
theorem byte_recompose (b : ℕ) (hb : b < 256) :
    (∑ u in Finset.range 8, ((b >>> (7 - u)) &&& 1) <<< (7 - u)) = b := by
  simp only [Finset.sum_range_succ, Finset.sum_range_zero,
    Nat.shiftRight_eq_div_pow, Nat.shiftLeft_eq, Nat.and_one_is_mod]
  norm_num
  omega

/-! ## The correlation decision recovers each framed bit -/

theorem studioFrame_length (msg : List ℕ) : (studioFrame msg).length = 4 + msg.length := by
  simp [studioFrame, lengthBytes]
  omega

theorem studioModulated_val (sr : ℕ) (msg : List ℕ) (i : ℕ) :
    (studioModulated sr msg).val i =
      (basebandList (bytesToBits (studioFrame msg)) (samplesPerChip sr)).getD i 0 *
        carrierWave 12000 sr (studioModulated sr msg).len i := rfl

theorem demodArr_len (freq : ℝ) (sr : ℕ) (a : Arr) : (demodArr freq sr a).len = a.len := rfl

theorem demodArr_val (freq : ℝ) (sr : ℕ) (a : Arr) (i : ℕ) :
    (demodArr freq sr a).val i = a.val i * carrierWave freq sr a.len i := rfl

theorem bitAt_eq (d : Arr) (spc pos : ℕ) :
    bitAt d spc pos = if 0 < corrAt d spc pos then 1 else 0 := rfl

theorem bytesToBits_getD_le_one (data : List ℕ) (k : ℕ) :
    (bytesToBits data).getD k 0 ≤ 1 := by
  by_cases h : k < (bytesToBits data).length
  · rw [bytesToBits_getD data k (by rw [← bytesToBits_length]; exact h)]
    exact Nat.and_le_right
  · rw [List.getD_eq_default _ _ (le_of_not_lt h)]
    omega

theorem studio_bit_correct (p : List ℕ) (k : ℕ)
    (hk : k < (bytesToBits (studioFrame p)).length) :
    bitAt (demodArr 12000 44100 (studioModulated 44100 p)) 44 (k * 1364) =
      (bytesToBits (studioFrame p)).getD k 0 := by
  have hB : (bytesToBits (studioFrame p)).length = (4 + p.length) * 8 := by
    rw [bytesToBits_length, studioFrame_length]
  have hn : (studioModulated 44100 p).len = (bytesToBits (studioFrame p)).length * 1364 := by
    rw [studioModulated_length, hB, show samplesPerChip 44100 = 44 from rfl]
    omega
  have hkB : k < (4 + p.length) * 8 := by omega
  have hbb : ∀ i u : ℕ, i < 31 → u < 44 →
      (basebandList (bytesToBits (studioFrame p)) (samplesPerChip 44100)).getD
          (k * 1364 + i * 44 + u) 0 =
        PNC_KEY.getD i 0 *
          (if (bytesToBits (studioFrame p)).getD k 0 = 1 then (1 : ℝ) else -1) := by
    intro i u hi hu
    rw [show samplesPerChip 44100 = 44 from rfl,
      basebandList_getD _ _ (by omega) _ (by rw [hB]; omega),
      show (k * 1364 + i * 44 + u) / 44 = k * 31 + i by omega,
      show (k * 31 + i) % 31 = i by omega,
      show (k * 31 + i) / 31 = k by omega]
  have hd : ∀ i u : ℕ, i < 31 → u < 44 →
      (demodArr 12000 44100 (studioModulated 44100 p)).val (k * 1364 + i * 44 + u) =
        (if (bytesToBits (studioFrame p)).getD k 0 = 1 then (1 : ℝ) else -1) *
          (PNC_KEY.getD i 0 *
            (carrierWave 12000 44100 (studioModulated 44100 p).len
              (k * 1364 + i * 44 + u)) ^ 2) := by
    intro i u hi hu
    rw [demodArr_val, studioModulated_val, hbb i u hi hu]
    ring
  have hcm : ∀ i : ℕ, i < 31 →
      chipMean (demodArr 12000 44100 (studioModulated 44100 p)) 44 (k * 1364) i =
        (if (bytesToBits (studioFrame p)).getD k 0 = 1 then (1 : ℝ) else -1) *
          PNC_KEY.getD i 0 *
          (∑ u in Finset.range 44,
            (carrierWave 12000 44100 (studioModulated 44100 p).len
              (k * 1364 + i * 44 + u)) ^ 2) / 44 := by
    intro i hi
    rw [chipMean,
      Finset.sum_congr rfl (fun u hu => hd i u hi (Finset.mem_range.mp hu)),
      ← Finset.mul_sum, ← Finset.mul_sum]
    push_cast
    ring
  have hcorr : corrAt (demodArr 12000 44100 (studioModulated 44100 p)) 44 (k * 1364) =
      (if (bytesToBits (studioFrame p)).getD k 0 = 1 then (1 : ℝ) else -1) *
        (∑ j in Finset.range 1364,
          (carrierWave 12000 44100 (studioModulated 44100 p).len (k * 1364 + j)) ^ 2) / 44 := by
    rw [corrAt, PNC_KEY_length,
      Finset.sum_congr rfl (fun i hi => by rw [hcm i (Finset.mem_range.mp hi)])]
    have hsq : ∀ i ∈ Finset.range 31,
        (if (bytesToBits (studioFrame p)).getD k 0 = 1 then (1 : ℝ) else -1) *
            PNC_KEY.getD i 0 *
            (∑ u in Finset.range 44,
              (carrierWave 12000 44100 (studioModulated 44100 p).len
                (k * 1364 + i * 44 + u)) ^ 2) / 44 * PNC_KEY.getD i 0 =
          (if (bytesToBits (studioFrame p)).getD k 0 = 1 then (1 : ℝ) else -1) *
            (∑ u in Finset.range 44,
              (carrierWave 12000 44100 (studioModulated 44100 p).len
                (k * 1364 + i * 44 + u)) ^ 2) / 44 := by
      intro i hi
      have h1 := PNC_getD_mul_self i (Finset.mem_range.mp hi)
      have h2 : (if (bytesToBits (studioFrame p)).getD k 0 = 1 then (1 : ℝ) else -1) *
            PNC_KEY.getD i 0 *
            (∑ u in Finset.range 44,
              (carrierWave 12000 44100 (studioModulated 44100 p).len
                (k * 1364 + i * 44 + u)) ^ 2) / 44 * PNC_KEY.getD i 0 =
          (if (bytesToBits (studioFrame p)).getD k 0 = 1 then (1 : ℝ) else -1) *
            (∑ u in Finset.range 44,
              (carrierWave 12000 44100 (studioModulated 44100 p).len
                (k * 1364 + i * 44 + u)) ^ 2) / 44 *
            (PNC_KEY.getD i 0 * PNC_KEY.getD i 0) := by
        ring
      rw [h2, h1, mul_one]
    rw [Finset.sum_congr rfl hsq, ← Finset.sum_div, ← Finset.mul_sum]
    have hgrid := sum_grid
      (fun off => (carrierWave 12000 44100 (studioModulated 44100 p).len (k * 1364 + off)) ^ 2)
      31 44
    rw [show (31 * 44 : ℕ) = 1364 from rfl] at hgrid
    have hassoc : ∀ i ∈ Finset.range 31,
        (∑ u in Finset.range 44,
          (carrierWave 12000 44100 (studioModulated 44100 p).len
            (k * 1364 + i * 44 + u)) ^ 2) =
        ∑ u in Finset.range 44,
          (carrierWave 12000 44100 (studioModulated 44100 p).len
            (k * 1364 + (i * 44 + u))) ^ 2 :=
      fun i _ => Finset.sum_congr rfl (fun u _ => by rw [Nat.add_assoc])
    rw [Finset.sum_congr rfl hassoc, ← hgrid]
  have hW : 0 < ∑ j in Finset.range 1364,
      (carrierWave 12000 44100 (studioModulated 44100 p).len (k * 1364 + j)) ^ 2 := by
    apply window_sum_pos _ (by omega) _ _ (by omega) (by omega)
  rw [bitAt_eq, hcorr]
  by_cases hbit : (bytesToBits (studioFrame p)).getD k 0 = 1
  · rw [if_pos hbit]
    have hp : (0 : ℝ) < 1 * (∑ j in Finset.range 1364,
        (carrierWave 12000 44100 (studioModulated 44100 p).len (k * 1364 + j)) ^ 2) / 44 := by
      rw [one_mul]
      exact div_pos hW (by norm_num)
    rw [if_pos hp, hbit]
  · have h0 : (bytesToBits (studioFrame p)).getD k 0 = 0 := by
      have := bytesToBits_getD_le_one (studioFrame p) k
      omega
    rw [if_neg hbit]
    have hneg : (-1 : ℝ) * (∑ j in Finset.range 1364,
        (carrierWave 12000 44100 (studioModulated 44100 p).len (k * 1364 + j)) ^ 2) / 44 < 0 := by
      have hq := div_pos hW (by norm_num : (0:ℝ) < 44)
      have he : (-1 : ℝ) * (∑ j in Finset.range 1364,
          (carrierWave 12000 44100 (studioModulated 44100 p).len (k * 1364 + j)) ^ 2) / 44 =
          -((∑ j in Finset.range 1364,
            (carrierWave 12000 44100 (studioModulated 44100 p).len (k * 1364 + j)) ^ 2) / 44) := by
        ring
      rw [he]
      linarith
    rw [if_neg (not_lt.mpr hneg.le), h0]

/-! ## Assembling the round trip -/

theorem studioBits_eq (audio : Arr) (sr : ℕ) :
    studioBits audio sr =
      (List.range (min (audio.len / (PNC_KEY.length * samplesPerChip sr)) (32 + 8 * 256))).map
        (fun k => bitAt (demodArr 12000 sr audio) (samplesPerChip sr)
          (k * (PNC_KEY.length * samplesPerChip sr))) := rfl

theorem studioBits_modulated (p : List ℕ) (hL : p.length ≤ 256) :
    studioBits (studioModulated 44100 p) 44100 = bytesToBits (studioFrame p) := by
  have hB : (bytesToBits (studioFrame p)).length = (4 + p.length) * 8 := by
    rw [bytesToBits_length, studioFrame_length]
  have hn : (studioModulated 44100 p).len = (bytesToBits (studioFrame p)).length * 1364 := by
    rw [studioModulated_length, hB, show samplesPerChip 44100 = 44 from rfl]
    omega
  rw [studioBits_eq]
  simp only [show samplesPerChip 44100 = 44 from rfl, PNC_KEY_length,
    show (31 * 44 : ℕ) = 1364 by norm_num]
  have hmin : min ((studioModulated 44100 p).len / 1364) (32 + 8 * 256) =
      (bytesToBits (studioFrame p)).length := by
    rw [hn]
    have hdiv : (bytesToBits (studioFrame p)).length * 1364 / 1364 =
        (bytesToBits (studioFrame p)).length := by omega
    rw [hdiv]
    omega
  rw [hmin]
  apply List.ext_getElem (by simp)
  intro k h1 h2
  rw [List.getElem_map, List.getElem_range, studio_bit_correct p k h2]
  exact List.getD_eq_getElem _ _ h2

theorem bitsToBytes_bytesToBits (data : List ℕ) (hdata : ∀ b ∈ data, b < 256) :
    bitsToBytes (bytesToBits data) = data := by
  apply List.ext_getElem
  · rw [bitsToBytes_length, bytesToBits_length]
    omega
  · intro j h1 h2
    simp only [bitsToBytes]
    rw [List.getElem_map, List.getElem_range]
    have hsum : ∀ u ∈ Finset.range 8,
        ((bytesToBits data).getD (8 * j + u) 0) <<< (7 - u) =
          ((data.getD j 0 >>> (7 - u)) &&& 1) <<< (7 - u) := by
      intro u hu
      have hu8 := Finset.mem_range.mp hu
      rw [bytesToBits_getD data _ (by omega),
        show (8 * j + u) / 8 = j by omega, show (8 * j + u) % 8 = u by omega]
    rw [Finset.sum_congr rfl hsum,
      byte_recompose _ (by
        rw [List.getD_eq_getElem _ _ h2]
        exact hdata _ (List.getElem_mem h2)),
      List.getD_eq_getElem _ _ h2]

/-- C1: for every payload of at most 256 bytes, framing with the 4-byte
big-endian length prefix, spreading each bit with the 31-chip PN code,
modulating onto the 12 kHz carrier at 44100 Hz, then demodulating with
the same locally generated carrier replica, averaging chip windows,
correlating against the PN code with sign thresholding, and extracting
the length-prefixed bytes recovers exactly the payload, with no noise and
the Masker bypassed. -/
theorem C1_noiseless_round_trip (p : List ℕ) (hL : p.length ≤ 256)
    (hb : ∀ b ∈ p, b < 256) :
    studioExtract (studioModulated 44100 p) 44100 = p := by
  show studioAssemble (studioBits (studioModulated 44100 p) 44100) = p
  rw [studioBits_modulated p hL]
  have hframe_bytes : ∀ b ∈ studioFrame p, b < 256 := by
    intro b hbm
    rcases List.mem_append.mp hbm with h | h
    · simp only [lengthBytes, List.mem_cons, List.not_mem_nil, or_false] at h
      rcases h with h | h | h | h <;> subst h <;> omega
    · exact hb b h
  rw [studioAssemble]
  simp only [bitsToBytes_bytesToBits (studioFrame p) hframe_bytes]
  have hlen : ¬ (studioFrame p).length < 4 := by
    rw [studioFrame_length]
    omega
  rw [if_neg hlen]
  have e0 : (studioFrame p).getD 0 0 = p.length / 2 ^ 24 % 256 := by
    rw [studioFrame, getD_append_lt _ _ _ _ (by simp [lengthBytes])]
    rfl
  have e1 : (studioFrame p).getD 1 0 = p.length / 2 ^ 16 % 256 := by
    rw [studioFrame, getD_append_lt _ _ _ _ (by simp [lengthBytes])]
    rfl
  have e2 : (studioFrame p).getD 2 0 = p.length / 2 ^ 8 % 256 := by
    rw [studioFrame, getD_append_lt _ _ _ _ (by simp [lengthBytes])]
    rfl
  have e3 : (studioFrame p).getD 3 0 = p.length % 256 := by
    rw [studioFrame, getD_append_lt _ _ _ _ (by simp [lengthBytes])]
    rfl
  rw [e0, e1, e2, e3]
  have hrecomb : p.length / 2 ^ 24 % 256 * 2 ^ 24 + p.length / 2 ^ 16 % 256 * 2 ^ 16 +
      p.length / 2 ^ 8 % 256 * 2 ^ 8 + p.length % 256 = p.length := by
    omega
  rw [hrecomb, studioFrame,
    show (4 : ℕ) = (lengthBytes p.length).length from rfl, List.drop_left,
    List.take_length]

/-- Witness for C1 at the empty payload. -/
theorem C1_noiseless_round_trip_witness :
    studioExtract (studioModulated 44100 []) 44100 = [] :=
  C1_noiseless_round_trip [] (by decide) (by decide)

end Milcodec
